import Mathlib

/- Verification development for the contact-scraping utility in src/3.py:
   regex-based email and teacher-block extraction, positional email
   assignment, and insert-or-ignore persistence, with the two network
   fetches of a run modelled as explicit inputs. -/

namespace Scraper

/-- Characters admitted by the local part of the email pattern
[a-zA-Z0-9._%+-] (ASCII letters, digits, and the five symbols). -/
def isLocalChar (c : Char) : Bool :=
  c.isAlpha || c.isDigit || c == '.' || c == '_' || c == '%' || c == '+' || c == '-'

/-- The fixed institutional domain suffix of the email pattern
(12 characters). -/
def domainChars : List Char := String.toList "@ncut.edu.tw"

/-- Literal occurrence of `pat` at the head of `s`. -/
def leadsWith : List Char → List Char → Bool
  | [], _ => true
  | _ :: _, [] => false
  | p :: ps, c :: cs => p == c && leadsWith ps cs

/-- Length of the email-regex match anchored at the head of `s`, if any:
a maximal nonempty run of local characters followed by the literal
domain.  The greedy run admits no backtracking because every shorter run
is followed by a local character, never by the at sign, so this single
check is exactly the Python regex engine's behaviour at this position. -/
def emailLenAt (s : List Char) : Option Nat :=
  let loc := s.takeWhile isLocalChar
  if loc.isEmpty then none
  else if leadsWith domainChars (s.drop loc.length) then some (loc.length + 12)
  else none

/-- Fuelled left-to-right non-overlapping scan of re.findall for the
email pattern: at each position either take the anchored match and
resume after it, or advance one character.  Every step consumes at
least one character, so fuel equal to the length of the scanned text
never runs out. -/
def emailScan (fuel : Nat) (s : List Char) : List (List Char) :=
  match fuel, s with
  | 0, _ => []
  | _ + 1, [] => []
  | fuel + 1, c :: cs =>
    match emailLenAt (c :: cs) with
    | some n => (c :: cs).take n :: emailScan fuel ((c :: cs).drop n)
    | none => emailScan fuel cs

/-- Scan of re.findall for the email pattern over the whole text. -/
def reFindallEmail (s : List Char) : List (List Char) :=
  emailScan s.length s

/-- Lexicographic strict comparison of character lists by code point,
the order Python uses on str. -/
def listCharLt : List Char → List Char → Bool
  | _, [] => false
  | [], _ :: _ => true
  | a :: as, b :: bs =>
    if a < b then true
    else if b < a then false
    else listCharLt as bs

/-- Non-strict string comparison by code points. -/
def strLeB (a b : String) : Bool :=
  ! listCharLt (String.toList b) (String.toList a)

/-- Python sorted(set(xs)) on strings: duplicates removed, then
ascending lexicographic (code-point) order. -/
def sortedSet (xs : List String) : List String :=
  List.insertionSort (fun a b => strLeB a b = true) xs.dedup

/-- Pure core of fetch_emails_from_ncut applied to already-fetched page
text: findall, set, sorted. -/
def extract_emails (text : String) : List String :=
  sortedSet ((reFindallEmail (String.toList text)).map String.mk)

/-- Index of the first occurrence of `pat` in `s`.  A lazy gap followed
by a literal in a Python regex matches exactly the first occurrence of
that literal, so this is the building block of the searches below. -/
def findSub (pat : List Char) : List Char → Option Nat
  | [] => if pat.isEmpty then some 0 else none
  | c :: cs =>
    if leadsWith pat (c :: cs) then some 0
    else (findSub pat cs).map (· + 1)

/-- Opening literal of the teacher-block pattern. -/
def litTeacher : List Char := String.toList "<div class=\"teacher-list\">"

/-- Closing-div literal (6 characters). -/
def closeDiv : List Char := String.toList "</div>"

/-- Whitespace class of the regex escape backslash-s, ASCII range. -/
def isPySpace (c : Char) : Bool :=
  c == ' ' || c == '\t' || c == '\n' || c == '\r' || c == '\x0b' || c == '\x0c'

/-- Length of the block-closing construct anchored at the head of `s`:
a closing div, a greedy whitespace run, and a second closing div.  The
whitespace run cannot backtrack because the following literal starts
with a non-whitespace character. -/
def closeLen (s : List Char) : Option Nat :=
  if leadsWith closeDiv s then
    let w := ((s.drop 6).takeWhile isPySpace).length
    if leadsWith closeDiv (s.drop (6 + w)) then some (6 + w + 6) else none
  else none

/-- Lazy scan for the nearest block-closing construct; returns the
total length consumed from the current position. -/
def findClose (s : List Char) : Option Nat :=
  match s with
  | [] => none
  | c :: cs =>
    match closeLen (c :: cs) with
    | some n => some n
    | none => (findClose cs).map (· + 1)

/-- Length of the teacher-block match anchored at the head of `s`. -/
def blockLen (s : List Char) : Option Nat :=
  if leadsWith litTeacher s then
    (findClose (s.drop litTeacher.length)).map (litTeacher.length + ·)
  else none

/-- Fuelled left-to-right non-overlapping scan of re.findall for the
teacher-block pattern; fuel equal to the text length never runs out
because every step consumes at least one character. -/
def blockScan (fuel : Nat) (s : List Char) : List (List Char) :=
  match fuel, s with
  | 0, _ => []
  | _ + 1, [] => []
  | fuel + 1, c :: cs =>
    match blockLen (c :: cs) with
    | some n => (c :: cs).take n :: blockScan fuel ((c :: cs).drop n)
    | none => blockScan fuel cs

/-- Scan of re.findall for the teacher-block pattern over the whole
page. -/
def reFindallBlocks (s : List Char) : List (List Char) :=
  blockScan s.length s

/-- Opening literal of the name sub-pattern. -/
def litName : List Char := String.toList "<div class=\"member_name\">"

/-- Anchor literal of the link element. -/
def openA : List Char := String.toList "<a"

/-- Closing literal of the link element. -/
def closeA : List Char := String.toList "</a>"

/-- Opening literal of the title sub-pattern. -/
def litTitle : List Char := String.toList "<div class=\"member_info_title\">"

/-- Chinese word for job title appearing inside the label container. -/
def zhTitle : List Char := String.toList "職稱"

/-- Opening literal of the content container in the title sub-pattern. -/
def litContent : List Char := String.toList "<div class=\"member_info_content\">"

/-- Python str.strip on both ends, ASCII whitespace. -/
def pyStrip (l : List Char) : List Char :=
  ((l.dropWhile isPySpace).reverse.dropWhile isPySpace).reverse

/-- Model of re.search for the name sub-pattern inside one block.  Each
lazy gap followed by a literal resolves to the first occurrence of that
literal, and a failure after the first occurrence implies failure after
every later one, so the whole search collapses to this chain of first
occurrences; the captured group is the text between the first closing
angle bracket after the link opener and the first closing link tag. -/
def searchName (b : List Char) : Option (List Char) :=
  (findSub litName b).bind fun i =>
    let r1 := b.drop (i + litName.length)
    (findSub openA r1).bind fun j =>
      let r2 := r1.drop (j + 2)
      (findSub ['>'] r2).bind fun k =>
        let r3 := r2.drop (k + 1)
        (findSub closeA r3).map fun m => r3.take m

/-- Backtracking tail of the title sub-pattern: scan for a closing div
followed by a whitespace run and the content-container literal; the
captured group runs to the first closing div after that literal.  When
the inner steps fail the scan resumes one character later, exactly as
the lazy gap before the closing div backtracks. -/
def titleTail : List Char → Option (List Char)
  | [] => none
  | c :: cs =>
    if leadsWith closeDiv (c :: cs) then
      let r := (c :: cs).drop 6
      let w := (r.takeWhile isPySpace).length
      if leadsWith litContent (r.drop w) then
        let r3 := (r.drop w).drop litContent.length
        match findSub closeDiv r3 with
        | some m => some (r3.take m)
        | none => titleTail cs
      else titleTail cs
    else titleTail cs

/-- Model of re.search for the title sub-pattern inside one block: the
label-container literal, then the first occurrence of the title word,
then the backtracking tail. -/
def searchTitle (b : List Char) : Option (List Char) :=
  (findSub litTitle b).bind fun i =>
    let r1 := b.drop (i + litTitle.length)
    (findSub zhTitle r1).bind fun j =>
      titleTail (r1.drop (j + zhTitle.length))

/-- Contact record as built by extract_contacts. -/
structure Contact where
  name : String
  title : String
  email : String
  deriving DecidableEq

/-- Sentinel value used by the source for a missed field. -/
def unk : String := "未知"

/-- Name field of one block: trimmed captured group, or the sentinel. -/
def nameOf (b : List Char) : String :=
  match searchName b with
  | some g => String.mk (pyStrip g)
  | none => unk

/-- Title field of one block: trimmed captured group, or the sentinel. -/
def titleOf (b : List Char) : String :=
  match searchTitle b with
  | some g => String.mk (pyStrip g)
  | none => unk

/-- One loop iteration of extract_contacts: name and title from the
block, email by position. -/
def buildContact (emails : List String) (i : Nat) (b : List Char) : Contact :=
  { name := nameOf b, title := titleOf b, email := emails.getD i unk }

/-- Loop of extract_contacts with its running email index. -/
def buildLoop (emails : List String) (i : Nat) : List (List Char) → List Contact
  | [] => []
  | b :: bs => buildContact emails i b :: buildLoop emails (i + 1) bs

/-- Contact Builder over an explicit block sequence. -/
def build_contacts (blocks : List (List Char)) (emails : List String) : List Contact :=
  buildLoop emails 0 blocks

/-- Source extract_contacts: extract the blocks, then build. -/
def extract_contacts (html : String) (emails : List String) : List Contact :=
  build_contacts (reFindallBlocks (String.toList html)) emails

/-- One INSERT OR IGNORE on the contacts table: the row is appended
unless its email is already present. -/
def insertOrIgnore (db : List Contact) (c : Contact) : List Contact :=
  if (db.map Contact.email).contains c.email then db else db ++ [c]

/-- Loop of save_to_database over the batch. -/
def save_to_database (db : List Contact) : List Contact → List Contact
  | [] => db
  | c :: cs => save_to_database (insertOrIgnore db c) cs

/-- Outcome of one network request: page text, or a transport error. -/
inductive FetchResult where
  | ok (text : String)
  | err
  deriving DecidableEq

/-- Model of fetch_html: the page text and whether an error dialog was
shown; a transport error yields the empty string and a dialog. -/
def fetch_html (r : FetchResult) : String × Bool :=
  match r with
  | FetchResult.ok t => (t, false)
  | FetchResult.err => ("", true)

/-- Model of fetch_emails_from_ncut: extraction over the fetched text,
or the empty list on a transport error (logged, no dialog). -/
def fetch_emails_from_ncut (r : FetchResult) : List String :=
  match r with
  | FetchResult.ok t => extract_emails t
  | FetchResult.err => []

/-- Observable outcome of one run of fetch_and_display: the stored
rows, the displayed contact sequence (none when nothing was rendered),
and whether an error dialog was shown. -/
structure RunOut where
  db : List Contact
  shown : Option (List Contact)
  errMsg : Bool
  deriving DecidableEq

/-- Model of fetch_and_display: validate the address, fetch the page,
re-fetch for the emails, build, save, display.  `r1` is the outcome of
the page fetch and `r2` the outcome of the separate email fetch. -/
def fetch_and_display (url : String) (r1 r2 : FetchResult) (db : List Contact) : RunOut :=
  if url = "" then ⟨db, none, true⟩
  else
    let fr := fetch_html r1
    if fr.1 = "" then ⟨db, none, fr.2⟩
    else
      let contacts := extract_contacts fr.1 (fetch_emails_from_ncut r2)
      ⟨save_to_database db contacts, some contacts, false⟩

/-- Block used by the witness of the field-independence claim: no name
container, but a complete title construct. -/
def bNoName : List Char :=
  String.toList
    "<div class=\"member_info_title\">職稱</div><div class=\"member_info_content\">Prof</div>"

/-- Page text used by the re-fetch counterexample: one teacher block
and one domain email in the same page. -/
def pageOneBlock : String :=
  "<div class=\"teacher-list\">x</div></div>a@ncut.edu.tw"

/-- Recognizer, written from the spec's words, of a string of the shape
local-part at fixed-institutional-domain: a nonempty run of local
characters followed by the 12-character domain suffix. -/
def isEmailShape (l : List Char) : Bool :=
  decide (12 < l.length) && (l.take (l.length - 12)).all isLocalChar
    && decide (l.drop (l.length - 12) = domainChars)

/-- Spec-words reading of the extractor's match universe, stated for
comparison with the source's scan: every substring of the page text
that has the email shape, before deduplication and sorting. -/
def allShapeSubstrings (t : String) : List String :=
  (((List.range ((String.toList t).length + 1)).flatMap fun i =>
      (List.range ((String.toList t).length + 1)).map fun j =>
        String.mk (((String.toList t).drop i).take j)).filter
    fun e => isEmailShape (String.toList e))

theorem buildLoop_length (emails : List String) (i : Nat) (bs : List (List Char)) :
    (buildLoop emails i bs).length = bs.length := by
  induction bs generalizing i with
  | nil => rfl
  | cons b bs ih => simp [buildLoop, ih]

theorem buildLoop_get (emails : List String) (bs : List (List Char)) (j i : Nat)
    (h : i < (buildLoop emails j bs).length) (hb : i < bs.length) :
    (buildLoop emails j bs).get ⟨i, h⟩ = buildContact emails (j + i) (bs.get ⟨i, hb⟩) := by
  induction bs generalizing j i with
  | nil => simp at hb
  | cons b bs ih =>
    cases i with
    | zero => simp [buildLoop]
    | succ k =>
      have hk := ih (j + 1) k (by simpa [buildLoop] using h) (by simpa using hb)
      have harith : j + 1 + k = j + (k + 1) := by omega
      simpa [buildLoop, harith] using hk

theorem getD_of_lt {α : Type} (l : List α) (i : Nat) (d : α) (h : i < l.length) :
    l.getD i d = l.get ⟨i, h⟩ := by
  induction l generalizing i with
  | nil => simp at h
  | cons a t ih =>
    cases i with
    | zero => rfl
    | succ k => simpa [List.getD] using ih k (by simpa using h)

theorem getD_of_le {α : Type} (l : List α) (i : Nat) (d : α) (h : l.length ≤ i) :
    l.getD i d = d := by
  induction l generalizing i with
  | nil => rfl
  | cons a t ih =>
    cases i with
    | zero => simp at h
    | succ k => simpa [List.getD] using ih k (by simpa using h)

/-- C3: the Contact Builder returns exactly one Contact per block, in
block order: the output length equals the blocks length, for shorter,
longer, or empty email sequences alike. -/
theorem build_contacts_length_eq (blocks : List (List Char)) (emails : List String) :
    (build_contacts blocks emails).length = blocks.length :=
  buildLoop_length emails 0 blocks

/-- C4: email assignment is purely positional: the i-th built contact
carries the i-th email when i is below the email count, and the
sentinel value otherwise. -/
theorem email_assignment_positional (blocks : List (List Char)) (emails : List String)
    (i : Nat) (h : i < (build_contacts blocks emails).length) :
    (∀ he : i < emails.length,
        ((build_contacts blocks emails).get ⟨i, h⟩).email = emails.get ⟨i, he⟩)
  ∧ (emails.length ≤ i → ((build_contacts blocks emails).get ⟨i, h⟩).email = unk) := by
  have hb : i < blocks.length := by
    have hl := buildLoop_length emails 0 blocks
    have h2 : i < (buildLoop emails 0 blocks).length := h
    omega
  have hget : (build_contacts blocks emails).get ⟨i, h⟩
      = buildContact emails (0 + i) (blocks.get ⟨i, hb⟩) :=
    buildLoop_get emails blocks 0 i h hb
  constructor
  · intro he
    rw [hget]
    simp only [buildContact, Nat.zero_add]
    exact getD_of_lt emails i unk he
  · intro hle
    rw [hget]
    simp only [buildContact, Nat.zero_add]
    exact getD_of_le emails i unk hle

/-- Witness for the positional-email theorem at the spec's example
shape: three blocks but two emails, so the second contact receives the
second email and the third receives the sentinel. -/
theorem email_assignment_positional_witness :
    ((build_contacts [[], [], []] ["e1", "e2"]).get ⟨1, by decide⟩).email = "e2"
  ∧ ((build_contacts [[], [], []] ["e1", "e2"]).get ⟨2, by decide⟩).email = unk :=
  ⟨by
     have h1 :=
       (email_assignment_positional [[], [], []] ["e1", "e2"] 1 (by decide)).1 (by decide)
     simpa using h1,
   (email_assignment_positional [[], [], []] ["e1", "e2"] 2 (by decide)).2 (by decide)⟩

/-- C5: name and title sub-matches of one block run independently:
each field is determined by its own search alone, a missing search
yields the sentinel, and the other field is unaffected. -/
theorem name_title_independent (b : List Char) (emails : List String) (i : Nat) :
    (searchName b = none → (buildContact emails i b).name = unk)
  ∧ (∀ g, searchName b = some g → (buildContact emails i b).name = String.mk (pyStrip g))
  ∧ (searchTitle b = none → (buildContact emails i b).title = unk)
  ∧ (∀ g, searchTitle b = some g → (buildContact emails i b).title = String.mk (pyStrip g))
  ∧ (∀ b2, searchName b2 = searchName b →
        (buildContact emails i b2).name = (buildContact emails i b).name)
  ∧ (∀ b2, searchTitle b2 = searchTitle b →
        (buildContact emails i b2).title = (buildContact emails i b).title) := by
  refine ⟨fun h => ?_, fun g h => ?_, fun h => ?_, fun g h => ?_,
    fun b2 h => ?_, fun b2 h => ?_⟩
  all_goals simp [buildContact, nameOf, titleOf, h]

/-- Witness for the field-independence theorem: a block with no name
container still yields its title, and the name falls back to the
sentinel. -/
theorem name_title_independent_witness :
    (buildContact [] 0 bNoName).name = unk ∧ (buildContact [] 0 bNoName).title = "Prof" :=
  ⟨(name_title_independent bNoName [] 0).1 (by decide),
   by
     have h1 :=
       (name_title_independent bNoName [] 0).2.2.2.1 (String.toList "Prof") (by decide)
     rw [h1]
     decide⟩

/-- C8: a transport failure of the page fetch aborts the run with an
error dialog, before any extraction, and leaves the store exactly as it
was. -/
theorem fetch_failure_aborts (url : String) (r2 : FetchResult) (db : List Contact)
    (h : url ≠ "") :
    fetch_and_display url FetchResult.err r2 db = ⟨db, none, true⟩ := by
  simp [fetch_and_display, fetch_html, h]

/-- Witness for the fetch-failure theorem at a concrete address and
store. -/
theorem fetch_failure_aborts_witness :
    fetch_and_display "u" FetchResult.err (FetchResult.ok "x") [] = ⟨[], none, true⟩ :=
  fetch_failure_aborts "u" (FetchResult.ok "x") [] (by decide)

/-- C9: an empty address fails fast with an error dialog: the store is
untouched, nothing is displayed, and the outcome is independent of the
network, which is never consulted. -/
theorem empty_address_fails_fast (r1 r2 r1' r2' : FetchResult) (db : List Contact) :
    fetch_and_display "" r1 r2 db = ⟨db, none, true⟩
  ∧ fetch_and_display "" r1 r2 db = fetch_and_display "" r1' r2' db := by
  constructor <;> simp [fetch_and_display]

theorem contains_email_iff (db : List Contact) (e : String) :
    (db.map Contact.email).contains e = true ↔ e ∈ db.map Contact.email :=
  List.elem_iff

theorem email_mem_insertOrIgnore (db : List Contact) (c : Contact) :
    c.email ∈ (insertOrIgnore db c).map Contact.email := by
  unfold insertOrIgnore
  split
  · next hc => exact (contains_email_iff db c.email).mp hc
  · simp

theorem email_mono_insertOrIgnore (db : List Contact) (c : Contact) (x : String)
    (hx : x ∈ db.map Contact.email) : x ∈ (insertOrIgnore db c).map Contact.email := by
  unfold insertOrIgnore
  split
  · exact hx
  · simp [hx]

theorem email_mono_save (db : List Contact) (cs : List Contact) (x : String)
    (hx : x ∈ db.map Contact.email) : x ∈ (save_to_database db cs).map Contact.email := by
  induction cs generalizing db with
  | nil => exact hx
  | cons c cs ih => exact ih _ (email_mono_insertOrIgnore db c x hx)

theorem emails_present_after_save (db : List Contact) (cs : List Contact) :
    ∀ c ∈ cs, c.email ∈ (save_to_database db cs).map Contact.email := by
  induction cs generalizing db with
  | nil => intro c hc; simp at hc
  | cons c0 cs ih =>
    intro c hc
    rcases List.mem_cons.mp hc with h | h
    · subst h
      exact email_mono_save _ cs _ (email_mem_insertOrIgnore db c)
    · exact ih _ c h

theorem save_noop (db : List Contact) (cs : List Contact)
    (h : ∀ c ∈ cs, c.email ∈ db.map Contact.email) : save_to_database db cs = db := by
  induction cs generalizing db with
  | nil => rfl
  | cons c cs ih =>
    have hc : insertOrIgnore db c = db := by
      unfold insertOrIgnore
      rw [if_pos ((contains_email_iff db c.email).mpr (h c (by simp)))]
    show save_to_database (insertOrIgnore db c) cs = db
    rw [hc]
    exact ih db (fun c2 hc2 => h c2 (by simp [hc2]))

theorem save_idem (db : List Contact) (cs : List Contact) :
    save_to_database (save_to_database db cs) cs = save_to_database db cs :=
  save_noop _ _ (emails_present_after_save db cs)

/-- C1: running the pipeline twice against identical fetch outcomes is
idempotent end-to-end: the second run leaves the store row count
unchanged and returns exactly the sequence of the first run. -/
theorem pipeline_idempotent (url : String) (r1 r2 : FetchResult) (db : List Contact) :
    (fetch_and_display url r1 r2 (fetch_and_display url r1 r2 db).db).db.length
      = (fetch_and_display url r1 r2 db).db.length
  ∧ (fetch_and_display url r1 r2 (fetch_and_display url r1 r2 db).db).shown
      = (fetch_and_display url r1 r2 db).shown := by
  by_cases hu : url = ""
  · simp [fetch_and_display, hu]
  · cases r1 with
    | err => simp [fetch_and_display, fetch_html, hu]
    | ok t =>
      by_cases ht : t = ""
      · simp [fetch_and_display, fetch_html, hu, ht]
      · simp [fetch_and_display, fetch_html, hu, ht, save_idem]

theorem filter_split_length {α : Type} (p : α → Bool) (l : List α) :
    (l.filter p).length + (l.filter fun a => ! p a).length = l.length := by
  induction l with
  | nil => rfl
  | cons a t ih => cases h : p a <;> simp [List.filter_cons, h] <;> omega

theorem contains_append_singleton (L : List String) (e x : String) (hne : x ≠ e) :
    (L ++ [e]).contains x = L.contains x := by
  cases hb : L.contains x with
  | true =>
    have hm : x ∈ L ++ [e] := List.mem_append.mpr (Or.inl (List.elem_iff.mp hb))
    exact List.elem_iff.mpr hm
  | false =>
    cases hb2 : (L ++ [e]).contains x with
    | false => rfl
    | true =>
      exfalso
      rcases List.mem_append.mp (List.elem_iff.mp hb2) with hL | hR
      · have ht : L.contains x = true := List.elem_iff.mpr hL
        rw [hb] at ht
        cases ht
      · exact hne (by simpa using hR)

theorem save_length_nodup (db : List Contact) (cs : List Contact)
    (hnd : (cs.map Contact.email).Nodup) :
    (save_to_database db cs).length
      = db.length
        + (cs.filter fun c => ! (db.map Contact.email).contains c.email).length := by
  induction cs generalizing db with
  | nil => rfl
  | cons c cs ih =>
    rw [List.map_cons, List.nodup_cons] at hnd
    by_cases hc : (db.map Contact.email).contains c.email
    · have hins : insertOrIgnore db c = db := by
        unfold insertOrIgnore
        rw [if_pos hc]
      have hfil : List.filter (fun c2 => ! (db.map Contact.email).contains c2.email) (c :: cs)
          = List.filter (fun c2 => ! (db.map Contact.email).contains c2.email) cs := by
        rw [List.filter_cons, hc]
        rfl
      show (save_to_database (insertOrIgnore db c) cs).length = _
      rw [hins, ih db hnd.2, hfil]
    · have hcf : (db.map Contact.email).contains c.email = false := by
        cases h2 : (db.map Contact.email).contains c.email with
        | false => rfl
        | true => exact absurd h2 hc
      have hins : insertOrIgnore db c = db ++ [c] := by
        unfold insertOrIgnore
        rw [if_neg hc]
      show (save_to_database (insertOrIgnore db c) cs).length = _
      rw [hins, ih (db ++ [c]) hnd.2]
      have hfc : (cs.filter fun c2 => ! ((db ++ [c]).map Contact.email).contains c2.email)
          = cs.filter fun c2 => ! (db.map Contact.email).contains c2.email := by
        apply List.filter_congr
        intro c2 hc2
        have hne : c2.email ≠ c.email := by
          intro he
          exact hnd.1 (he ▸ List.mem_map_of_mem Contact.email hc2)
        rw [List.map_append]
        rw [show List.map Contact.email [c] = [c.email] from rfl]
        rw [contains_append_singleton _ _ _ hne]
      rw [hfc]
      have hfil : List.filter (fun c2 => ! (db.map Contact.email).contains c2.email) (c :: cs)
          = c :: List.filter (fun c2 => ! (db.map Contact.email).contains c2.email) cs := by
        rw [List.filter_cons, hcf]
        rfl
      rw [hfil]
      simp only [List.length_append, List.length_cons, List.length_nil]
      omega

/-- C6 as stated is false: with an internal duplicate in the batch,
exactly one contact duplicating an already-stored email does not give
N-1 new rows.  Store holds one row with email e1; the batch has two
contacts with the fresh email e2 and one with the stored email e1, so
exactly one batch element duplicates a stored row, yet only one row is
added (2 rows total, not 1 + (3 - 1) = 3). -/
theorem save_partial_isolation_cex :
    ((([⟨"a", "a", "e2"⟩, ⟨"b", "b", "e2"⟩, ⟨"c", "c", "e1"⟩] : List Contact).filter
        fun c => (([⟨"n", "t", "e1"⟩] : List Contact).map Contact.email).contains c.email).length
      = 1)
  ∧ (save_to_database [⟨"n", "t", "e1"⟩]
        [⟨"a", "a", "e2"⟩, ⟨"b", "b", "e2"⟩, ⟨"c", "c", "e1"⟩]).length
      ≠ ([⟨"n", "t", "e1"⟩] : List Contact).length
        + (([⟨"a", "a", "e2"⟩, ⟨"b", "b", "e2"⟩, ⟨"c", "c", "e1"⟩] : List Contact).length - 1) := by
  constructor
  · decide
  · decide

/-- C6 amended: when the batch's emails are pairwise distinct and
exactly one contact's email duplicates an already-stored row, save adds
exactly N-1 new rows. -/
theorem save_partial_isolation (db : List Contact) (cs : List Contact)
    (hnd : (cs.map Contact.email).Nodup)
    (hone : (cs.filter fun c => (db.map Contact.email).contains c.email).length = 1) :
    (save_to_database db cs).length = db.length + (cs.length - 1) := by
  have hsplit :=
    filter_split_length (fun c => (db.map Contact.email).contains c.email) cs
  have hlen := save_length_nodup db cs hnd
  omega

/-- Witness for the amended partial-isolation theorem: two contacts
with distinct emails, one duplicating the stored row, add exactly one
row. -/
theorem save_partial_isolation_witness :
    (save_to_database [⟨"n", "t", "e1"⟩] [⟨"a", "a", "e2"⟩, ⟨"c", "c", "e1"⟩]).length
      = ([⟨"n", "t", "e1"⟩] : List Contact).length
        + (([⟨"a", "a", "e2"⟩, ⟨"c", "c", "e1"⟩] : List Contact).length - 1) :=
  save_partial_isolation [⟨"n", "t", "e1"⟩] [⟨"a", "a", "e2"⟩, ⟨"c", "c", "e1"⟩]
    (by decide) (by decide)

/-- C7 as stated is false: the emails handed to the Contact Builder
come from a second fetch of the address, not from the string the blocks
were extracted from.  When the second fetch observes different content
the built sequence differs from what a single shared fetch would give. -/
theorem single_fetch_cex :
    (fetch_and_display "u" (FetchResult.ok pageOneBlock) (FetchResult.ok "y") []).shown
      ≠ some (extract_contacts pageOneBlock (extract_emails pageOneBlock)) := by
  decide

/-- C7 amended: the emails handed to the Contact Builder are the Email
Extractor applied to the content of the separate second fetch; when the
two fetches return identical content this coincides with extracting
over the blocks' own source string. -/
theorem emails_from_second_fetch (url t1 t2 : String) (db : List Contact)
    (hu : url ≠ "") (h1 : t1 ≠ "") :
    (fetch_and_display url (FetchResult.ok t1) (FetchResult.ok t2) db).shown
      = some (extract_contacts t1 (extract_emails t2)) := by
  simp [fetch_and_display, fetch_html, fetch_emails_from_ncut, hu, h1]

/-- Witness for the second-fetch theorem: identical contents in both
fetches reproduce the single-fetch reading. -/
theorem emails_from_second_fetch_witness :
    (fetch_and_display "u" (FetchResult.ok pageOneBlock) (FetchResult.ok pageOneBlock)
        []).shown
      = some (extract_contacts pageOneBlock (extract_emails pageOneBlock)) :=
  emails_from_second_fetch "u" pageOneBlock pageOneBlock [] (by decide) (by decide)

theorem buildLoop_email_nil (i : Nat) (bs : List (List Char)) :
    ∀ c ∈ buildLoop [] i bs, c.email = unk := by
  induction bs generalizing i with
  | nil => intro c hc; simp [buildLoop] at hc
  | cons b bs ih =>
    intro c hc
    rcases List.mem_cons.mp hc with h | h
    · subst h
      rfl
    · exact ih (i + 1) c h

theorem buildLoop_names_titles (es es2 : List String) (i i2 : Nat) (bs : List (List Char)) :
    (buildLoop es i bs).map (fun c => (c.name, c.title))
      = (buildLoop es2 i2 bs).map fun c => (c.name, c.title) := by
  induction bs generalizing i i2 with
  | nil => rfl
  | cons b bs ih => simp [buildLoop, buildContact, ih (i + 1) (i2 + 1)]

/-- C10: a transport failure of the separate email fetch does not abort
the run and shows no error dialog: the extractor yields the empty
sequence, every built contact carries the sentinel email, names and
titles are extracted exactly as with any email sequence, and the result
is persisted and displayed. -/
theorem email_fetch_failure_soft (url t : String) (db : List Contact)
    (hu : url ≠ "") (ht : t ≠ "") :
    fetch_emails_from_ncut FetchResult.err = []
  ∧ (fetch_and_display url (FetchResult.ok t) FetchResult.err db).errMsg = false
  ∧ (fetch_and_display url (FetchResult.ok t) FetchResult.err db).shown
      = some (extract_contacts t [])
  ∧ (fetch_and_display url (FetchResult.ok t) FetchResult.err db).db
      = save_to_database db (extract_contacts t [])
  ∧ (∀ c ∈ extract_contacts t [], c.email = unk)
  ∧ ∀ es, (extract_contacts t []).map (fun c => (c.name, c.title))
      = (extract_contacts t es).map fun c => (c.name, c.title) := by
  refine ⟨rfl, ?_, ?_, ?_, ?_, ?_⟩
  · simp [fetch_and_display, fetch_html, hu, ht]
  · simp [fetch_and_display, fetch_html, fetch_emails_from_ncut, hu, ht]
  · simp [fetch_and_display, fetch_html, fetch_emails_from_ncut, hu, ht]
  · exact buildLoop_email_nil 0 (reFindallBlocks (String.toList t))
  · intro es
    exact buildLoop_names_titles [] es 0 0 (reFindallBlocks (String.toList t))

/-- Witness for the email-fetch-failure theorem on a page with one
block: no dialog, and the one displayed contact has the sentinel
email. -/
theorem email_fetch_failure_soft_witness :
    (fetch_and_display "u" (FetchResult.ok pageOneBlock) FetchResult.err []).errMsg = false
  ∧ (fetch_and_display "u" (FetchResult.ok pageOneBlock) FetchResult.err []).shown
      = some [⟨unk, unk, unk⟩] := by
  have h := email_fetch_failure_soft "u" pageOneBlock [] (by decide) (by decide)
  refine ⟨h.2.1, ?_⟩
  rw [h.2.2.1]
  decide

theorem leadsWith_exists {p s : List Char} (h : leadsWith p s = true) : ∃ r, s = p ++ r := by
  induction p generalizing s with
  | nil => exact ⟨s, rfl⟩
  | cons a q ih =>
    cases s with
    | nil => simp [leadsWith] at h
    | cons c cs =>
      rw [leadsWith, Bool.and_eq_true] at h
      obtain ⟨r, hr⟩ := ih h.2
      have hac : a = c := by simpa using h.1
      exact ⟨r, by rw [hr, List.cons_append, hac]⟩

theorem drop_takeWhile (p : Char → Bool) (s : List Char) :
    s.drop (s.takeWhile p).length = s.dropWhile p := by
  induction s with
  | nil => rfl
  | cons c cs ih =>
    cases h : p c <;> simp [List.takeWhile_cons, List.dropWhile_cons, h, ih]

theorem isEmailShape_append (loc : List Char) (hne : loc ≠ [])
    (hall : loc.all isLocalChar = true) : isEmailShape (loc ++ domainChars) = true := by
  have hd : domainChars.length = 12 := rfl
  have hlen : (loc ++ domainChars).length = loc.length + 12 := by
    simp [List.length_append, hd]
  have hsub : (loc ++ domainChars).length - 12 = loc.length := by omega
  have hlp : 0 < loc.length := List.length_pos.mpr hne
  rw [isEmailShape, hsub, List.take_left, List.drop_left]
  simp [hlen, hall]
  omega

theorem emailLenAt_spec {s : List Char} {n : Nat} (h : emailLenAt s = some n) :
    n ≤ s.length ∧ isEmailShape (s.take n) = true := by
  simp only [emailLenAt] at h
  split at h
  · exact absurd h (by simp)
  · next hne =>
    split at h
    · next hdom =>
      have hn := Option.some.inj h
      obtain ⟨r, hr⟩ := leadsWith_exists hdom
      have hs : s = s.takeWhile isLocalChar ++ (domainChars ++ r) := by
        have h1 := @List.takeWhile_append_dropWhile Char isLocalChar s
        rw [← drop_takeWhile isLocalChar s, hr] at h1
        exact h1.symm
      have hnil : s.takeWhile isLocalChar ≠ [] := by
        intro h0
        exact hne (by simp [h0])
      have hall : (s.takeWhile isLocalChar).all isLocalChar = true := by
        apply List.all_eq_true.mpr
        intro x hx
        exact List.mem_takeWhile_imp hx
      constructor
      · rw [hs]
        have hd : domainChars.length = 12 := rfl
        simp only [List.length_append, hd]
        omega
      · have htake : s.take n = s.takeWhile isLocalChar ++ domainChars := by
          conv_lhs => rw [hs, ← hn, List.take_append]
          have h12 : List.take 12 (domainChars ++ r) = domainChars := List.take_left' rfl
          rw [h12]
        rw [htake]
        exact isEmailShape_append _ hnil hall
    · exact absurd h (by simp)

theorem emailScan_mem (fuel : Nat) :
    ∀ (s m : List Char), m ∈ emailScan fuel s →
      isEmailShape m = true
        ∧ ∃ i j, i ≤ s.length ∧ j ≤ s.length ∧ m = (s.drop i).take j := by
  induction fuel with
  | zero =>
    intro s m hm
    simp [emailScan] at hm
  | succ fuel ih =>
    intro s m hm
    cases s with
    | nil => simp [emailScan] at hm
    | cons c cs =>
      simp only [emailScan] at hm
      split at hm
      · next n heq =>
        obtain ⟨hle, hsh⟩ := emailLenAt_spec heq
        rcases List.mem_cons.mp hm with h | h
        · subst h
          exact ⟨hsh, 0, n, Nat.zero_le _, hle, by simp⟩
        · obtain ⟨hsh2, i, j, hi, hj, hm2⟩ := ih ((c :: cs).drop n) m h
          rw [List.drop_drop] at hm2
          rw [List.length_drop] at hi hj
          refine ⟨hsh2, n + i, j, by omega, by omega, hm2⟩
      · obtain ⟨hsh2, i, j, hi, hj, hm2⟩ := ih cs m hm
        refine ⟨hsh2, i + 1, j, ?_, ?_, ?_⟩
        · simp only [List.length_cons]
          omega
        · simp only [List.length_cons]
          omega
        · simpa using hm2

theorem mem_allShapeSubstrings (t : String) (m : List Char)
    (hm : m ∈ reFindallEmail (String.toList t)) : String.mk m ∈ allShapeSubstrings t := by
  obtain ⟨hsh, i, j, hi, hj, hm2⟩ := emailScan_mem _ _ m hm
  rw [allShapeSubstrings]
  apply List.mem_filter.mpr
  refine ⟨List.mem_flatMap.mpr ⟨i, ?_, List.mem_map.mpr ⟨j, ?_, ?_⟩⟩, ?_⟩
  · apply List.mem_range.mpr
    omega
  · apply List.mem_range.mpr
    omega
  · rw [hm2]
  · simpa using hsh

theorem listCharLt_lex : ∀ (x y : List Char), listCharLt x y = true ↔ List.Lex (· < ·) x y := by
  intro x
  induction x with
  | nil =>
    intro y
    cases y with
    | nil =>
      refine iff_of_false (by simp [listCharLt]) ?_
      intro h
      cases h
    | cons b bs => exact iff_of_true (by simp [listCharLt]) List.Lex.nil
  | cons a as ih =>
    intro y
    cases y with
    | nil =>
      refine iff_of_false (by simp [listCharLt]) ?_
      intro h
      cases h
    | cons b bs =>
      by_cases hab : a < b
      · exact iff_of_true (by simp [listCharLt, hab]) (List.Lex.rel hab)
      · by_cases hba : b < a
        · refine iff_of_false (by simp [listCharLt, hab, hba]) ?_
          intro h
          cases h with
          | cons h2 => exact lt_irrefl a hba
          | rel h2 => exact hab h2
        · have heq : a = b := le_antisymm (not_lt.mp hba) (not_lt.mp hab)
          subst heq
          have hstep : listCharLt (a :: as) (a :: bs) = listCharLt as bs := by
            simp [listCharLt, lt_irrefl]
          rw [hstep, ih bs]
          exact List.Lex.cons_iff.symm

theorem listCharLt_iff (x y : List Char) : listCharLt x y = true ↔ x < y :=
  (listCharLt_lex x y).trans Iff.rfl

theorem strLeB_le_iff (a b : String) : strLeB a b = true ↔ a ≤ b := by
  constructor
  · intro h
    rw [String.le_iff_toList_le]
    have hf : listCharLt (String.toList b) (String.toList a) = false := by
      rw [strLeB] at h
      simpa using h
    have hnlt : ¬ String.toList b < String.toList a := by
      rw [← listCharLt_iff]
      simp only [String.toList] at hf ⊢
      simp [hf]
    exact not_lt.mp hnlt
  · intro h
    have hle : String.toList a ≤ String.toList b := String.le_iff_toList_le.mp h
    have hnlt : ¬ String.toList b < String.toList a := not_lt.mpr hle
    rw [← listCharLt_iff] at hnlt
    rw [strLeB]
    simp only [String.toList] at hnlt ⊢
    simp only [Bool.not_eq_true] at hnlt
    simp [hnlt]

/-- C2 as stated is false: the extractor does not return every
substring of the email shape.  On a page whose whole text is one email
with a two-character local part, the suffix dropping the first local
character is also a substring of the shape, but the scan, which takes
maximal non-overlapping matches, returns only the full address. -/
theorem extract_emails_not_all_substrings :
    extract_emails "ab@ncut.edu.tw" ≠ sortedSet (allShapeSubstrings "ab@ncut.edu.tw") := by
  decide

/-- C2 amended: the extractor returns the deduplicated, ascending
sorted list of the scan's leftmost non-overlapping matches (rather than
of all shape substrings); the result is sorted with no repeats, and a
text with zero shape substrings yields the empty sequence. -/
theorem extract_emails_props (t : String) :
    List.Sorted (· ≤ ·) (extract_emails t)
  ∧ (extract_emails t).Nodup
  ∧ (∀ e, e ∈ extract_emails t ↔ e ∈ (reFindallEmail (String.toList t)).map String.mk)
  ∧ (allShapeSubstrings t = [] → extract_emails t = []) := by
  haveI htot : IsTotal String fun a b => strLeB a b = true :=
    ⟨fun a b => by
      rcases le_total a b with h | h
      · exact Or.inl ((strLeB_le_iff a b).mpr h)
      · exact Or.inr ((strLeB_le_iff b a).mpr h)⟩
  haveI htrans : IsTrans String fun a b => strLeB a b = true :=
    ⟨fun a b c hab hbc =>
      (strLeB_le_iff a c).mpr
        (le_trans ((strLeB_le_iff a b).mp hab) ((strLeB_le_iff b c).mp hbc))⟩
  refine ⟨?_, ?_, ?_, ?_⟩
  · have hs := List.sorted_insertionSort (fun a b => strLeB a b = true)
      (((reFindallEmail (String.toList t)).map String.mk).dedup)
    exact hs.imp fun hab => (strLeB_le_iff _ _).mp hab
  · exact ((List.perm_insertionSort (fun a b => strLeB a b = true) _).nodup_iff).mpr
      (List.nodup_dedup _)
  · intro e
    rw [extract_emails, sortedSet]
    rw [(List.perm_insertionSort (fun a b => strLeB a b = true) _).mem_iff]
    exact List.mem_dedup
  · intro hA
    cases hfind : reFindallEmail (String.toList t) with
    | nil =>
      rw [extract_emails, hfind]
      rfl
    | cons m ms =>
      exfalso
      have hmem : String.mk m ∈ allShapeSubstrings t :=
        mem_allShapeSubstrings t m (by rw [hfind]; exact List.mem_cons_self m ms)
      rw [hA] at hmem
      exact absurd hmem (List.not_mem_nil _)

/-- Witness for the amended extractor theorem: a text with no shape
substring yields the empty sequence. -/
theorem extract_emails_props_witness :
    allShapeSubstrings "abc" = [] ∧ extract_emails "abc" = [] :=
  ⟨by decide, (extract_emails_props "abc").2.2.2 (by decide)⟩

end Scraper
